import Mathlib

/-!
Verification of the Markdown-translator-go batch-translation pipeline.

Shallow embedding of the Go sources:
* `src/utils/text.go`   — `ExtractTranslation` (delimiter extraction from raw LLM output)
* `src/utils/io.go`     — `WriteFile` (existence check / mkdir / write)
* `src/discovery/finder.go` — `FindMarkdownFiles` (recursive `.md` discovery via `filepath.WalkDir`)
* `processor` package   — `worker` / `ProcessFiles` (task state machine and counters)
* `main` package        — exit-status policy

Modelling conventions:
* Go strings are modelled as `List Char` wherever their character structure
  matters (file contents, LLM output); file-system paths stay `String` since
  they are only built by joins and compared for equality.
* The file system visible to the pipeline is a record `FS`: a partial map from
  paths to contents plus environment-chosen error behaviour for `os.Stat`,
  `os.MkdirAll` and `os.WriteFile`.  `MkdirAll` on the parent of `p` is
  recorded by adding `p` to `madeDirs`.
* Reads of the (read-only) source tree and backend calls are oracles in `Env`.
* The worker pool is modelled by sequential exactly-once consumption of the
  task list; the counters are order-independent sums, which is exactly the
  content of the spec's order-independence guarantee.
* Workers are instrumented with an event trace (`Event`) recording the skip
  check, source reads and backend invocations, so that "no backend call
  occurs" is a statement about the model rather than about its silence.
-/

namespace MdT

/-! ### Go string helpers -/

/-- `unicode.IsSpace` as used by Go's `strings.TrimSpace`. -/
def goIsSpace (c : Char) : Bool :=
  let n := c.toNat
  (9 ≤ n && n ≤ 13) || n == 32 || n == 0x85 || n == 0xA0 || n == 0x1680 ||
  (0x2000 ≤ n && n ≤ 0x200A) || n == 0x2028 || n == 0x2029 || n == 0x202F ||
  n == 0x205F || n == 0x3000

/-- Go `strings.TrimSpace` on a character list. -/
def trimSpaceL (s : List Char) : List Char :=
  ((s.dropWhile goIsSpace).reverse.dropWhile goIsSpace).reverse

/-- `leadsWith pat s` : `pat` is an initial segment of `s`. -/
def leadsWith : List Char → List Char → Bool
  | [], _ => true
  | _ :: _, [] => false
  | p :: ps, c :: cs => p == c && leadsWith ps cs

/-- Index of the first occurrence of `pat` as a contiguous block of `s`
(leftmost match, as Go's RE2 finds literal substrings). -/
def findOcc (pat : List Char) : List Char → Option Nat
  | [] => if leadsWith pat [] then some 0 else none
  | c :: cs =>
    if leadsWith pat (c :: cs) then some 0
    else (findOcc pat cs).map (· + 1)

/-! ### `src/utils/text.go` : `ExtractTranslation` -/

/-- The fixed opening delimiter of the extraction regex
`(?s)<translate>(.*?)</translate>`. -/
def openTag : List Char := "<translate>".toList

/-- The fixed closing delimiter of the extraction regex. -/
def closeTag : List Char := "</translate>".toList

/-- The capture group of `translateTagRegex.FindStringSubmatch`: leftmost
occurrence of `<translate>`, then non-greedily up to the first following
`</translate>`.  `none` when the regex does not match. -/
def tagCapture (s : List Char) : Option (List Char) :=
  match findOcc openTag s with
  | none => none
  | some i =>
    match findOcc closeTag (s.drop (i + openTag.length)) with
    | none => none
    | some j => some ((s.drop (i + openTag.length)).take j)

/-- The bounded preview of the raw output used in the failure message
(first 300 characters followed by an ellipsis when longer). -/
def previewOf (s : List Char) : List Char :=
  if 300 < s.length then s.take 300 ++ "...".toList else s

/-- Fixed text of the extraction-failure message, before the preview. -/
def extractErrHeader : List Char :=
  "无法在 LLM 输出中找到 <translate>...</translate> 标签。输出预览 (最多300字符): ".toList

/-- `utils.ExtractTranslation`: match the delimiter regex on the raw output,
retry once on the whitespace-trimmed output, trim the captured group; on
failure return the diagnostic message with the bounded preview of the raw
output. -/
def ExtractTranslation (raw : List Char) : Except (List Char) (List Char) :=
  match tagCapture raw with
  | some m => .ok (trimSpaceL m)
  | none =>
    match tagCapture (trimSpaceL raw) with
    | some m => .ok (trimSpaceL m)
    | none => .error (extractErrHeader ++ previewOf raw)

/-- Simplified extraction that attempts the regex match only once, on the raw
input (the candidate refinement target of the redundancy claim). -/
def ExtractTranslationOnce (raw : List Char) : Except (List Char) (List Char) :=
  match tagCapture raw with
  | some m => .ok (trimSpaceL m)
  | none => .error (extractErrHeader ++ previewOf raw)

/-! ### `src/utils/io.go` : `WriteFile` over a file-system model -/

/-- Outcome of `os.Stat` on a path, as discriminated by the Go code:
success (`ok`), failure satisfying `os.IsNotExist` (`notExist`), or any other
failure such as a permission error (`err`). -/
inductive StatRes where
  | ok
  | notExist
  | err
deriving DecidableEq, Repr

/-- The file system visible to the pipeline: written contents plus
environment-chosen error behaviour of the OS calls. `MkdirAll` on the parent
directory of `p` is recorded by adding `p` to `madeDirs`. -/
structure FS where
  files : String → Option (List Char)
  statErr : String → Bool
  mkdirErr : String → Bool
  writeErr : String → Bool
  madeDirs : List String

/-- `os.Stat` on path `p`. -/
def FS.stat (fs : FS) (p : String) : StatRes :=
  if fs.statErr p then .err
  else if (fs.files p).isSome then .ok
  else .notExist

/-- State change of a successful `os.MkdirAll(filepath.Dir(p))` followed by
`os.WriteFile(p, content, 0644)`: the file's content is fully replaced. -/
def FS.doWrite (fs : FS) (p : String) (content : List Char) : FS :=
  { fs with
    files := fun q => if q = p then some content else fs.files q
    madeDirs := p :: fs.madeDirs }

/-- The unconditional write path of `utils.WriteFile`: `os.MkdirAll` on the
parent directory, then `os.WriteFile`. -/
def writeStep (fs : FS) (p : String) (content : List Char) : Except String FS :=
  if fs.mkdirErr p then .error "创建目录失败"
  else if fs.writeErr p then .error "写入文件失败"
  else .ok (fs.doWrite p content)

/-- `utils.WriteFile(path, content, overwrite)` from `src/utils/io.go`:
when `overwrite` is false, an existing file makes the call a silent success,
a stat failure other than not-exist is an error, and only an absent file is
written; when `overwrite` is true the write is unconditional. -/
def WriteFile (fs : FS) (p : String) (content : List Char) (overwrite : Bool) :
    Except String FS :=
  if overwrite = false then
    match fs.stat p with
    | .ok => .ok fs
    | .err => .error "检查目标文件状态失败"
    | .notExist => writeStep fs p content
  else writeStep fs p content

/-! ### `processor` package : worker state machine and counters -/

/-- The fields of `config.Config` consumed by the processor. -/
structure Config where
  sourceDir : String
  targetDir : String
  overwrite : Bool
  dryRun : Bool

/-- Oracles for the effects outside the target file system: reading the
(read-only) source tree, presence of a `Translator` instance, and the
backend's behaviour on each input. -/
structure Env where
  readFile : String → Except String (List Char)
  transSome : Bool
  translate : List Char → Except String (List Char)

/-- Terminal classification of one task: which of the four counters the
worker increments for it. -/
inductive Outcome where
  | processed
  | skipped
  | failed
  | dryRunHit
deriving DecidableEq, Repr

/-- Instrumentation events: the target-existence skip check, a source read,
and a backend (`trans.Translate`) invocation. -/
inductive Event where
  | skipCheck
  | readSrc
  | backend
deriving DecidableEq, Repr

/-- `filepath.Join` for the joins the processor performs. -/
def pjoin (a b : String) : String := a ++ "/" ++ b

/-- The worker's per-task logic after the skip check (read source, dry-run
short-circuit, nil-translator guard, translate, extract, write), from
`processor.worker`. -/
def workerBody (cfg : Config) (env : Env) (fs : FS)
    (sourcePath targetPath : String) (pre : List Event) :
    Outcome × FS × List Event :=
  match env.readFile sourcePath with
  | .error _ => (.failed, fs, pre ++ [.readSrc])
  | .ok content =>
    if cfg.dryRun then (.dryRunHit, fs, pre ++ [.readSrc])
    else if env.transSome = false then (.failed, fs, pre ++ [.readSrc])
    else
      match env.translate content with
      | .error _ => (.failed, fs, pre ++ [.readSrc, .backend])
      | .ok raw =>
        match ExtractTranslation raw with
        | .error _ => (.failed, fs, pre ++ [.readSrc, .backend])
        | .ok text =>
          match WriteFile fs targetPath text cfg.overwrite with
          | .error _ => (.failed, fs, pre ++ [.readSrc, .backend])
          | .ok fs' => (.processed, fs', pre ++ [.readSrc, .backend])

/-- One full task execution by `processor.worker`: the skip check (only when
neither overwrite nor dry-run is set) followed by `workerBody`. -/
def worker1 (cfg : Config) (env : Env) (fs : FS) (rel : String) :
    Outcome × FS × List Event :=
  let sourcePath := pjoin cfg.sourceDir rel
  let targetPath := pjoin cfg.targetDir rel
  if !cfg.overwrite && !cfg.dryRun then
    match fs.stat targetPath with
    | .ok => (.skipped, fs, [.skipCheck])
    | .err => (.failed, fs, [.skipCheck])
    | .notExist => workerBody cfg env fs sourcePath targetPath [.skipCheck]
  else workerBody cfg env fs sourcePath targetPath []

/-- Exactly-once consumption of the task queue: each task is executed by one
worker; the counters are order-independent sums, so the pool is modelled by
sequential consumption of the task list. -/
def runList (cfg : Config) (env : Env) :
    FS → List String → List Outcome × FS × List Event
  | fs, [] => ([], fs, [])
  | fs, rel :: rest =>
    let r := worker1 cfg env fs rel
    let rr := runList cfg env r.2.1 rest
    (r.1 :: rr.1, rr.2.1, r.2.2 ++ rr.2.2)

/-- Occurrences of outcome `o` in an outcome list (one atomic increment of
the corresponding counter per occurrence). -/
def countO (o : Outcome) : List Outcome → Nat
  | [] => 0
  | x :: xs => (if x = o then 1 else 0) + countO o xs

/-- `processor.Stats` after the pool has drained. -/
structure Stats where
  total : Nat
  processed : Nat
  skipped : Nat
  failed : Nat
  dryRunHits : Nat
deriving DecidableEq, Repr

/-- `processor.ProcessFiles`: set `TotalFiles`, run every task exactly once,
return the final counters, final file system and the event trace. -/
def ProcessFiles (cfg : Config) (env : Env) (fs : FS) (files : List String) :
    Stats × FS × List Event :=
  let r := runList cfg env fs files
  ({ total := files.length
     processed := countO .processed r.1
     skipped := countO .skipped r.1
     failed := countO .failed r.1
     dryRunHits := countO .dryRunHit r.1 }, r.2.1, r.2.2)

/-! ### `main` package : exit-status policy -/

/-- The exit status chosen at the end of `main` (src/unnamed/part_001): 1 when
any task failed, 0 otherwise. -/
def mainExitCode (st : Stats) : Nat :=
  if 0 < st.failed then 1 else 0

/-! ### `src/discovery/finder.go` : `FindMarkdownFiles` -/

/-- A Go error as discriminated by the discovery callback: only
`os.IsPermission` is inspected. -/
structure GoErr where
  isPermission : Bool
deriving DecidableEq, Repr

/-- The directory-entry information (`fs.DirEntry`) the callback inspects. -/
structure EntryInfo where
  isDirE : Bool
  entryName : String
deriving DecidableEq, Repr

/-- Result of one `WalkDir` callback invocation: continue (`nil`), skip the
directory (`fs.SkipDir`), or abort the walk with a real error. -/
inductive CbRes where
  | cont
  | skipDir
  | fatal
deriving DecidableEq, Repr

/-- ASCII `strings.ToLower` (the only case folding relevant to the `.md`
suffix; no other Unicode code point lowers to `.`, `m` or `d`). -/
def lowerAscii (c : Char) : Char := c.toLower

/-- The selection test of the callback: the entry name, lower-cased, ends in
`".md"`. -/
def hasMdSuffix (name : String) : Bool :=
  leadsWith ['d', 'm', '.'] ((name.toList.map lowerAscii).reverse)

/-- The `WalkDir` callback of `FindMarkdownFiles`. `isRoot` is the
`path == sourceDir` comparison; `rel` is `filepath.Rel(sourceDir, path)`,
maintained by the walk.  Returns the control result and the relative path
appended to `files`, if any. -/
def walkCallback (isRoot : Bool) (d : Option EntryInfo) (walkErr : Option GoErr)
    (rel : String) : CbRes × Option String :=
  match walkErr with
  | some e =>
    if isRoot && e.isPermission then (.fatal, none)
    else
      match d with
      | none => (.cont, none)
      | some dd => if dd.isDirE then (.skipDir, none) else (.cont, none)
  | none =>
    match d with
    | some dd =>
      if !dd.isDirE && hasMdSuffix dd.entryName then (.cont, some rel)
      else (.cont, none)
    | none => (.cont, none)

/-- `filepath.Rel`-style join of relative path segments as produced by the
walk (`filepath.Join(path, name)` relative to the source root). -/
def joinRel (rel name : String) : String :=
  if rel = "" then name else rel ++ "/" ++ name

/-- A node of the source tree below the root: a non-directory entry, or a
directory with the outcome its `os.ReadDir` would have (`readErr`) and its
children. -/
inductive FTree where
  | file (name : String)
  | dir (name : String) (readErr : Option GoErr) (children : List FTree)
deriving Repr

/-- `filepath.WalkDir` below the root, specialised to the callback of
`FindMarkdownFiles`: visit each entry (collecting `.md` non-directories),
recurse into readable directories; a directory whose `ReadDir` fails is
reported to the callback a second time, which answers `fs.SkipDir` for every
non-root directory, so the subtree is skipped and the walk continues.
Off the root the callback never returns a real error, so the result is a
plain path list. -/
def walkList (rel : String) : List FTree → List String
  | [] => []
  | .file name :: ts =>
    (match walkCallback false (some ⟨false, name⟩) none (joinRel rel name) with
     | (_, some r) => [r]
     | (_, none) => []) ++ walkList rel ts
  | .dir name re children :: ts =>
    (match re with
     | some _ => []
     | none => walkList (joinRel rel name) children) ++ walkList rel ts

/-- The source root as seen by `filepath.WalkDir`: the outcome of
`os.Lstat(sourceDir)`, of `os.ReadDir(sourceDir)`, and the entries below. -/
structure SourceRoot where
  lstatErr : Option GoErr
  readErr : Option GoErr
  children : List FTree

/-- Message of the fatal discovery error (the wrapped permission error). -/
def discoveryFatalMsg : String := "文件发现失败: 源目录权限不足"

/-- `discovery.FindMarkdownFiles(sourceDir)`: run `filepath.WalkDir` with the
callback.  A root `Lstat` failure reaches the callback with `d == nil`; a
root `ReadDir` failure reaches it with the root directory entry; in both
cases only a permission error is fatal, every other root failure ends the
walk with `nil` and the (empty) collected list. -/
def FindMarkdownFiles (root : SourceRoot) : Except String (List String) :=
  match root.lstatErr with
  | some e =>
    match walkCallback true none (some e) "" with
    | (.fatal, _) => .error discoveryFatalMsg
    | _ => .ok []
  | none =>
    match root.readErr with
    | some e =>
      match walkCallback true (some ⟨true, ""⟩) (some e) "" with
      | (.fatal, _) => .error discoveryFatalMsg
      | _ => .ok []
    | none => .ok (walkList "" root.children)

/-- Reference collector for the discovery claim: exactly the non-directory
entries whose name case-insensitively ends in `".md"`, as relative paths. -/
def collectList (rel : String) : List FTree → List String
  | [] => []
  | .file name :: ts =>
    (if hasMdSuffix name then [joinRel rel name] else []) ++ collectList rel ts
  | .dir name _ children :: ts =>
    collectList (joinRel rel name) children ++ collectList rel ts

/-- No directory in the forest has a `ReadDir` error. -/
def errFreeList : List FTree → Bool
  | [] => true
  | .file _ :: ts => errFreeList ts
  | .dir _ re children :: ts => re.isNone && errFreeList children && errFreeList ts

example : ExtractTranslation "noise<translate> hi there </translate>junk".toList
    = .ok "hi there".toList := rfl

example : ExtractTranslation "  <translate>x</translate>".toList
    = .ok "x".toList := rfl

example :
    FindMarkdownFiles
      ⟨none, none,
        [.file "a.MD", .file "b.txt",
         .dir "sub" none [.file "c.md"],
         .dir "bad" (some ⟨false⟩) [.file "d.md"]]⟩
    = .ok ["a.MD", "sub/c.md"] := by
  simp [FindMarkdownFiles, walkList, walkCallback, hasMdSuffix, joinRel,
    lowerAscii, leadsWith]

/-! ### Counter lemmas -/

theorem countO_partition (os : List Outcome) :
    countO .processed os + countO .skipped os + countO .failed os +
      countO .dryRunHit os = os.length := by
  induction os with
  | nil => rfl
  | cons x xs ih =>
    cases x <;> simp [countO] <;> omega

theorem runList_length (cfg : Config) (env : Env) (fs : FS) (files : List String) :
    ((runList cfg env fs files).1).length = files.length := by
  induction files generalizing fs with
  | nil => rfl
  | cons rel rest ih => simp [runList, ih]

/-- C1: every run that completes satisfies
`Processed + Skipped + Failed + DryRunHits = TotalFiles`: each task taken from
the queue ends in exactly one terminal classification, incrementing exactly
one of the four counters once. -/
theorem stats_partition (cfg : Config) (env : Env) (fs : FS) (files : List String) :
    (ProcessFiles cfg env fs files).1.processed +
      (ProcessFiles cfg env fs files).1.skipped +
      (ProcessFiles cfg env fs files).1.failed +
      (ProcessFiles cfg env fs files).1.dryRunHits =
      (ProcessFiles cfg env fs files).1.total := by
  simp only [ProcessFiles]
  rw [countO_partition, runList_length]

/-- C7: the process exit status is non-zero exactly when the final `Failed`
counter is positive; in particular any run (dry or not) with zero failures
exits with status zero. -/
theorem exit_code_iff_failed (cfg : Config) (env : Env) (fs : FS)
    (files : List String) :
    mainExitCode (ProcessFiles cfg env fs files).1 ≠ 0 ↔
      0 < (ProcessFiles cfg env fs files).1.failed := by
  unfold mainExitCode
  by_cases h : 0 < (ProcessFiles cfg env fs files).1.failed <;> simp [h]

/-! ### Substring-search lemmas -/

theorem leadsWith_nil_eq (pat : List Char) (h : leadsWith pat [] = true) :
    pat = [] := by
  cases pat with
  | nil => rfl
  | cons p ps => simp [leadsWith] at h

theorem leadsWith_append (pat w v : List Char) (h : leadsWith pat w = true) :
    leadsWith pat (w ++ v) = true := by
  induction pat generalizing w with
  | nil => simp [leadsWith]
  | cons p ps ih =>
    cases w with
    | nil => simp [leadsWith] at h
    | cons c cs =>
      simp only [leadsWith, Bool.and_eq_true] at h ⊢
      exact ⟨h.1, ih cs h.2⟩

theorem findOcc_of_leadsWith (pat s : List Char) (k : Nat)
    (h : leadsWith pat (s.drop k) = true) : (findOcc pat s).isSome := by
  induction s generalizing k with
  | nil =>
    simp only [List.drop_nil] at h
    simp [findOcc, h]
  | cons c cs ih =>
    by_cases h0 : leadsWith pat (c :: cs) = true
    · simp [findOcc, h0]
    · cases k with
      | zero => simp at h; exact absurd h h0
      | succ j =>
        simp only [List.drop_succ_cons] at h
        have := ih j h
        simp only [findOcc, h0, if_false]
        simpa using this

theorem findOcc_le (pat s : List Char) (i j : Nat)
    (hf : findOcc pat s = some i) (h : leadsWith pat (s.drop j) = true) :
    i ≤ j := by
  induction s generalizing i j with
  | nil =>
    simp only [findOcc] at hf
    split at hf
    · simp only [Option.some.injEq] at hf; omega
    · cases hf
  | cons c cs ih =>
    by_cases h0 : leadsWith pat (c :: cs) = true
    · simp only [findOcc, if_pos h0, Option.some.injEq] at hf; omega
    · simp only [findOcc, if_neg h0] at hf
      rcases hrec : findOcc pat cs with _ | i'
      · rw [hrec] at hf; cases hf
      · rw [hrec] at hf
        simp only [Option.map_some', Option.some.injEq] at hf
        cases j with
        | zero => simp only [List.drop_zero] at h; exact absurd h h0
        | succ j' =>
          simp only [List.drop_succ_cons] at h
          have := ih i' j' hrec h
          omega

theorem drop_add_append (u t : List Char) (n : Nat) :
    (u ++ t).drop (u.length + n) = t.drop n := by
  rw [← List.drop_drop, List.drop_left]

theorem leadsWith_drop_append (pat t v : List Char) (n : Nat)
    (h : leadsWith pat (t.drop n) = true) :
    leadsWith pat ((t ++ v).drop n) = true := by
  by_cases hn : n ≤ t.length
  · rw [List.drop_append_of_le_length hn]
    exact leadsWith_append _ _ _ h
  · have ht : t.drop n = [] := List.drop_eq_nil_of_le (by omega)
    rw [ht] at h
    have := leadsWith_nil_eq pat h
    subst this
    simp [leadsWith]

theorem trimSpaceL_infix (s : List Char) :
    ∃ u v, s = u ++ trimSpaceL s ++ v := by
  refine ⟨s.takeWhile goIsSpace,
    ((s.dropWhile goIsSpace).reverse.takeWhile goIsSpace).reverse, ?_⟩
  have h2 : s.dropWhile goIsSpace =
      trimSpaceL s ++ ((s.dropWhile goIsSpace).reverse.takeWhile goIsSpace).reverse := by
    calc s.dropWhile goIsSpace
        = ((s.dropWhile goIsSpace).reverse).reverse := (List.reverse_reverse _).symm
      _ = ((s.dropWhile goIsSpace).reverse.takeWhile goIsSpace ++
            (s.dropWhile goIsSpace).reverse.dropWhile goIsSpace).reverse := by
            rw [List.takeWhile_append_dropWhile]
      _ = trimSpaceL s ++
            ((s.dropWhile goIsSpace).reverse.takeWhile goIsSpace).reverse := by
            rw [List.reverse_append]; rfl
  rw [List.append_assoc, ← h2, List.takeWhile_append_dropWhile]

theorem findOcc_spec (pat s : List Char) (i : Nat)
    (hf : findOcc pat s = some i) : leadsWith pat (s.drop i) = true := by
  induction s generalizing i with
  | nil =>
    simp only [findOcc] at hf
    split at hf
    · rename_i hlw
      simp only [Option.some.injEq] at hf
      subst hf
      simpa using hlw
    · cases hf
  | cons c cs ih =>
    by_cases h0 : leadsWith pat (c :: cs) = true
    · simp only [findOcc, if_pos h0, Option.some.injEq] at hf
      subst hf
      simpa using h0
    · simp only [findOcc, if_neg h0] at hf
      rcases hrec : findOcc pat cs with _ | i'
      · rw [hrec] at hf; cases hf
      · rw [hrec] at hf
        simp only [Option.map_some', Option.some.injEq] at hf
        subst hf
        simpa using ih i' hrec

/-- An occurrence of the delimiter pair in any middle segment of a string is
an occurrence in the whole string. -/
theorem tagCapture_isSome_of_mid (u t v : List Char)
    (h : (tagCapture t).isSome) : (tagCapture (u ++ t ++ v)).isSome := by
  rw [List.append_assoc]
  unfold tagCapture at h
  split at h
  · simp at h
  · rename_i i hi
    split at h
    · simp at h
    · rename_i j hj
      have hoi : leadsWith openTag ((u ++ (t ++ v)).drop (u.length + i)) = true := by
        rw [drop_add_append]
        exact leadsWith_drop_append _ _ _ _ (findOcc_spec _ _ _ hi)
      obtain ⟨k, hk⟩ := Option.isSome_iff_exists.mp
        (findOcc_of_leadsWith _ _ _ hoi)
      have hkle : k ≤ u.length + i := findOcc_le _ _ _ _ hk hoi
      have hcj : leadsWith closeTag
          ((u ++ (t ++ v)).drop (u.length + (i + openTag.length + j))) = true := by
        rw [drop_add_append]
        apply leadsWith_drop_append
        have hs := findOcc_spec _ _ _ hj
        rwa [List.drop_drop] at hs
      have hcm : leadsWith closeTag
          (((u ++ (t ++ v)).drop (k + openTag.length)).drop
            (u.length + i + j - k)) = true := by
        rw [List.drop_drop]
        have hidx : k + openTag.length + (u.length + i + j - k) =
            u.length + (i + openTag.length + j) := by omega
        rw [hidx]
        exact hcj
      obtain ⟨m, hm⟩ := Option.isSome_iff_exists.mp
        (findOcc_of_leadsWith _ _ _ hcm)
      unfold tagCapture
      simp [hk, hm]

/-- The regex never matches the whitespace-trimmed output when it does not
match the raw output: the trimmed string is a middle segment of the raw one. -/
theorem tagCapture_trim_none (s : List Char) (h : tagCapture s = none) :
    tagCapture (trimSpaceL s) = none := by
  rcases hc : tagCapture (trimSpaceL s) with _ | m
  · rfl
  · exfalso
    obtain ⟨u, v, huv⟩ := trimSpaceL_infix s
    have : (tagCapture (u ++ trimSpaceL s ++ v)).isSome :=
      tagCapture_isSome_of_mid u _ v (by rw [hc]; rfl)
    rw [← huv, h] at this
    simp at this

/-- C9: the whitespace-trim retry inside `ExtractTranslation` is redundant:
the function is extensionally equal to the version that attempts the regex
match only once, on the raw input. -/
theorem extract_retry_redundant (s : List Char) :
    ExtractTranslation s = ExtractTranslationOnce s := by
  rcases h : tagCapture s with _ | m
  · simp [ExtractTranslation, ExtractTranslationOnce, h, tagCapture_trim_none s h]
  · simp [ExtractTranslation, ExtractTranslationOnce, h]

/-- C4: on output of the form `noise ++ <translate> ++ X ++ </translate> ++
noise` where `X` is the first non-greedy span (the two `findOcc` hypotheses),
extraction returns exactly `X` trimmed; on input the regex does not match at
all, extraction fails (also after the trim retry) with the diagnostic message
carrying a preview bounded by 303 characters of the raw output. -/
theorem extraction_roundtrip :
    (∀ n1 X n2 : List Char,
      findOcc openTag (n1 ++ openTag ++ X ++ closeTag ++ n2) = some n1.length →
      findOcc closeTag (X ++ closeTag ++ n2) = some X.length →
      ExtractTranslation (n1 ++ openTag ++ X ++ closeTag ++ n2) =
        .ok (trimSpaceL X)) ∧
    (∀ r : List Char, tagCapture r = none →
      ExtractTranslation r = .error (extractErrHeader ++ previewOf r) ∧
      (previewOf r).length ≤ 303) := by
  constructor
  · intro n1 X n2 h1 h2
    have e1 : (n1 ++ openTag ++ X ++ closeTag ++ n2).drop
        (n1.length + openTag.length) = X ++ closeTag ++ n2 := by
      have e_assoc : n1 ++ openTag ++ X ++ closeTag ++ n2 =
          n1 ++ (openTag ++ (X ++ (closeTag ++ n2))) := by
        simp [List.append_assoc]
      rw [e_assoc, drop_add_append, List.drop_left, ← List.append_assoc]
    have hcap : tagCapture (n1 ++ openTag ++ X ++ closeTag ++ n2) = some X := by
      unfold tagCapture
      rw [h1]
      simp only []
      rw [e1, h2]
      simp only []
      rw [List.append_assoc, List.take_left]
    unfold ExtractTranslation
    rw [hcap]
  · intro r h
    refine ⟨?_, ?_⟩
    · simp [ExtractTranslation, h, tagCapture_trim_none r h]
    · have h3 : ("...".toList).length = 3 := rfl
      by_cases hlen : 300 < r.length
      · simp only [previewOf, if_pos hlen, List.length_append, List.length_take, h3]
        omega
      · simp only [previewOf, if_neg hlen]
        omega

/-- Witness for C4 at concrete inputs. -/
theorem extraction_roundtrip_witness :
    ExtractTranslation ("ab".toList ++ openTag ++ " x ".toList ++ closeTag ++
        "cd".toList) = .ok (trimSpaceL " x ".toList) ∧
    (ExtractTranslation "junk".toList =
        .error (extractErrHeader ++ previewOf "junk".toList) ∧
      (previewOf "junk".toList).length ≤ 303) :=
  ⟨extraction_roundtrip.1 "ab".toList " x ".toList "cd".toList rfl rfl,
   extraction_roundtrip.2 "junk".toList rfl⟩

/-! ### Worker-level lemmas -/

theorem skipCheck_not_mem_body (cfg : Config) (env : Env) (fs : FS)
    (sp tp : String) : Event.skipCheck ∉ (workerBody cfg env fs sp tp []).2.2 := by
  unfold workerBody
  repeat' split
  all_goals simp

/-- C2: with overwrite and dry-run both off, an existing target makes the task
end `Skipped` having performed only the skip check (no source read, no backend
call); a stat failure other than not-exist makes it end `Failed` the same way;
and with overwrite or dry-run on, the skip check is not performed at all. -/
theorem skip_check_semantics (cfg : Config) (env : Env) (fs : FS) (rel : String) :
    (cfg.overwrite = false → cfg.dryRun = false →
      (fs.stat (pjoin cfg.targetDir rel) = .ok →
        worker1 cfg env fs rel = (.skipped, fs, [.skipCheck])) ∧
      (fs.stat (pjoin cfg.targetDir rel) = .err →
        worker1 cfg env fs rel = (.failed, fs, [.skipCheck]))) ∧
    ((cfg.overwrite = true ∨ cfg.dryRun = true) →
      Event.skipCheck ∉ (worker1 cfg env fs rel).2.2) := by
  constructor
  · intro how hdr
    constructor <;> intro hstat <;> simp [worker1, how, hdr, hstat]
  · intro hor
    have hcond : (!cfg.overwrite && !cfg.dryRun) = false := by
      rcases hor with h | h <;> simp [h]
    simp only [worker1, hcond, Bool.false_eq_true, if_false]
    exact skipCheck_not_mem_body cfg env fs _ _

/-- Witness for C2: an existing target is skipped with only the check
performed; with overwrite on, the check does not happen. -/
theorem skip_check_semantics_witness :
    worker1 ⟨"s", "t", false, false⟩
        ⟨fun _ => .ok [], true, fun _ => .ok []⟩
        ⟨fun q => if q = "t/a.md" then some ['x'] else none,
          fun _ => false, fun _ => false, fun _ => false, []⟩ "a.md" =
      (.skipped,
        ⟨fun q => if q = "t/a.md" then some ['x'] else none,
          fun _ => false, fun _ => false, fun _ => false, []⟩, [.skipCheck]) ∧
    Event.skipCheck ∉
      (worker1 ⟨"s", "t", true, false⟩
        ⟨fun _ => .ok [], true, fun _ => .ok []⟩
        ⟨fun q => if q = "t/a.md" then some ['x'] else none,
          fun _ => false, fun _ => false, fun _ => false, []⟩ "a.md").2.2 :=
  ⟨((skip_check_semantics _ _ _ _).1 rfl rfl).1 (by decide),
   (skip_check_semantics _ _ _ _).2 (Or.inl rfl)⟩

theorem worker1_dryRun (cfg : Config) (env : Env) (fs : FS) (rel : String)
    (h : cfg.dryRun = true) :
    ((worker1 cfg env fs rel).1 = .dryRunHit ∨
      (worker1 cfg env fs rel).1 = .failed) ∧
    (worker1 cfg env fs rel).2.1 = fs ∧
    Event.backend ∉ (worker1 cfg env fs rel).2.2 := by
  have hcond : (!cfg.overwrite && !cfg.dryRun) = false := by simp [h]
  simp only [worker1, hcond, Bool.false_eq_true, if_false]
  unfold workerBody
  rcases env.readFile (pjoin cfg.sourceDir rel) with e | content
  · simp
  · simp [h]

theorem runList_dryRun (cfg : Config) (env : Env) (h : cfg.dryRun = true)
    (fs : FS) (files : List String) :
    (runList cfg env fs files).2.1 = fs ∧
    Event.backend ∉ (runList cfg env fs files).2.2 ∧
    ∀ o ∈ (runList cfg env fs files).1,
      o = Outcome.dryRunHit ∨ o = Outcome.failed := by
  induction files generalizing fs with
  | nil => simp [runList]
  | cons rel rest ih =>
    obtain ⟨h1, h2, h3⟩ := worker1_dryRun cfg env fs rel h
    obtain ⟨ih1, ih2, ih3⟩ := ih (worker1 cfg env fs rel).2.1
    refine ⟨?_, ?_, ?_⟩
    · simp only [runList]
      rw [ih1]
      exact h2
    · simp only [runList, List.mem_append]
      intro hmem
      rcases hmem with hm | hm
      · exact h3 hm
      · exact ih2 hm
    · simp only [runList, List.mem_cons]
      intro o ho
      rcases ho with rfl | ho
      · exact h1
      · exact ih3 o ho

/-! ### Outcome-counting lemmas -/

theorem countO_eq_zero_of_all (a : Outcome) (l : List Outcome)
    (h : ∀ x ∈ l, x ≠ a) : countO a l = 0 := by
  induction l with
  | nil => rfl
  | cons x xs ih =>
    have hx : x ≠ a := h x (by simp)
    simp only [countO, if_neg hx, ih fun y hy => h y (by simp [hy])]

theorem countO_pair_of_all (a b : Outcome) (l : List Outcome) (hab : a ≠ b)
    (h : ∀ x ∈ l, x = a ∨ x = b) :
    countO a l + countO b l = l.length := by
  induction l with
  | nil => rfl
  | cons x xs ih =>
    have hx := h x (by simp)
    have ih' := ih fun y hy => h y (by simp [hy])
    rcases hx with rfl | rfl
    · have e1 : countO x (x :: xs) = 1 + countO x xs := by simp [countO]
      have e2 : countO b (x :: xs) = countO b xs := by simp [countO, hab]
      rw [e1, e2, List.length_cons]
      omega
    · have e1 : countO a (x :: xs) = countO a xs := by simp [countO, hab.symm]
      have e2 : countO x (x :: xs) = 1 + countO x xs := by simp [countO]
      rw [e1, e2, List.length_cons]
      omega

/-- C3 (amended): in dry-run mode no backend call occurs and the file system
is unchanged; each task whose source read succeeds is counted in `DryRunHits`
and each task whose source read fails is counted in `Failed`, so
`DryRunHits = Total − Failed` (and no task is `Processed` or `Skipped`). -/
theorem dry_run_effects (cfg : Config) (env : Env) (fs : FS)
    (files : List String) (h : cfg.dryRun = true) :
    Event.backend ∉ (ProcessFiles cfg env fs files).2.2 ∧
    (ProcessFiles cfg env fs files).2.1 = fs ∧
    (ProcessFiles cfg env fs files).1.dryRunHits +
        (ProcessFiles cfg env fs files).1.failed =
      (ProcessFiles cfg env fs files).1.total ∧
    (ProcessFiles cfg env fs files).1.dryRunHits =
      (ProcessFiles cfg env fs files).1.total -
        (ProcessFiles cfg env fs files).1.failed ∧
    (ProcessFiles cfg env fs files).1.skipped = 0 ∧
    (ProcessFiles cfg env fs files).1.processed = 0 := by
  obtain ⟨h1, h2, h3⟩ := runList_dryRun cfg env h fs files
  have hpair : countO .dryRunHit (runList cfg env fs files).1 +
      countO .failed (runList cfg env fs files).1 =
      ((runList cfg env fs files).1).length :=
    countO_pair_of_all _ _ _ (by simp) fun x hx => h3 x hx
  have hsk : countO .skipped (runList cfg env fs files).1 = 0 :=
    countO_eq_zero_of_all _ _ fun x hx => by
      rcases h3 x hx with rfl | rfl <;> simp
  have hpr : countO .processed (runList cfg env fs files).1 = 0 :=
    countO_eq_zero_of_all _ _ fun x hx => by
      rcases h3 x hx with rfl | rfl <;> simp
  refine ⟨?_, ?_, ?_, ?_, ?_, ?_⟩
  · simpa [ProcessFiles] using h2
  · simpa [ProcessFiles] using h1
  · simp only [ProcessFiles]
    rw [hpair, runList_length]
  · simp only [ProcessFiles]
    rw [runList_length] at hpair
    omega
  · simpa [ProcessFiles] using hsk
  · simpa [ProcessFiles] using hpr

/-- Witness for C3's amended theorem at a concrete dry run. -/
theorem dry_run_effects_witness :
    (ProcessFiles ⟨"s", "t", false, true⟩
        ⟨fun _ => .ok ['x'], false, fun _ => .ok []⟩
        ⟨fun _ => none, fun _ => false, fun _ => false, fun _ => false, []⟩
        ["a.md", "b.md"]).1.dryRunHits =
      (ProcessFiles ⟨"s", "t", false, true⟩
        ⟨fun _ => .ok ['x'], false, fun _ => .ok []⟩
        ⟨fun _ => none, fun _ => false, fun _ => false, fun _ => false, []⟩
        ["a.md", "b.md"]).1.total -
        (ProcessFiles ⟨"s", "t", false, true⟩
          ⟨fun _ => .ok ['x'], false, fun _ => .ok []⟩
          ⟨fun _ => none, fun _ => false, fun _ => false, fun _ => false, []⟩
          ["a.md", "b.md"]).1.failed :=
  (dry_run_effects _ _ _ _ rfl).2.2.2.1

/-- Counterexample to C3 as stated: in a dry run over one discovered file
whose source read fails, the task is counted `Failed`, not `DryRunHits`, so
`DryRunHits ≠ Total − (pre-run discovery failures)` (discovery delivered the
file, so that correction term is zero). -/
theorem dry_run_total_cex :
    (ProcessFiles ⟨"s", "t", false, true⟩
        ⟨fun _ => .error "读取源文件失败", true, fun _ => .ok []⟩
        ⟨fun _ => none, fun _ => false, fun _ => false, fun _ => false, []⟩
        ["a.md"]).1.dryRunHits ≠
      (ProcessFiles ⟨"s", "t", false, true⟩
        ⟨fun _ => .error "读取源文件失败", true, fun _ => .ok []⟩
        ⟨fun _ => none, fun _ => false, fun _ => false, fun _ => false, []⟩
        ["a.md"]).1.total ∧
    (ProcessFiles ⟨"s", "t", false, true⟩
        ⟨fun _ => .error "读取源文件失败", true, fun _ => .ok []⟩
        ⟨fun _ => none, fun _ => false, fun _ => false, fun _ => false, []⟩
        ["a.md"]).1.failed = 1 := by
  constructor
  · decide
  · decide

/-! ### `WriteFile` semantics (C5) -/

/-- C5: with overwrite off, an existing target makes `WriteFile` a silent
success leaving the file system unchanged; a stat failure other than
not-exist is returned as an error with nothing written; otherwise (overwrite
on, or file absent) the parent directory is created and the content written,
fully replacing the file and touching no other path, with an error exactly
when directory creation or the write fails. -/
theorem write_file_semantics (fs : FS) (p : String) (c : List Char) :
    (fs.stat p = .ok → WriteFile fs p c false = .ok fs) ∧
    (fs.stat p = .err → WriteFile fs p c false = .error "检查目标文件状态失败") ∧
    (∀ ow : Bool, ow = true ∨ fs.stat p = .notExist →
      (fs.mkdirErr p = false → fs.writeErr p = false →
        WriteFile fs p c ow = .ok (fs.doWrite p c) ∧
        (fs.doWrite p c).files p = some c ∧
        (∀ q, q ≠ p → (fs.doWrite p c).files q = fs.files q) ∧
        p ∈ (fs.doWrite p c).madeDirs) ∧
      (fs.mkdirErr p = true ∨ fs.writeErr p = true →
        ∃ e, WriteFile fs p c ow = .error e)) := by
  refine ⟨?_, ?_, ?_⟩
  · intro h
    simp [WriteFile, h]
  · intro h
    simp [WriteFile, h]
  · intro ow how
    constructor
    · intro hm hw
      have hws : writeStep fs p c = .ok (fs.doWrite p c) := by
        simp [writeStep, hm, hw]
      refine ⟨?_, ?_, ?_, ?_⟩
      · rcases how with h | h
        · simp [WriteFile, h, hws]
        · cases ow with
          | true => simp [WriteFile, hws]
          | false => simp [WriteFile, h, hws]
      · simp [FS.doWrite]
      · intro q hq
        simp [FS.doWrite, hq]
      · simp [FS.doWrite]
    · intro herr
      have hws : ∃ e, writeStep fs p c = .error e := by
        by_cases hm : fs.mkdirErr p = true
        · exact ⟨"创建目录失败", by simp [writeStep, hm]⟩
        · have hm' : fs.mkdirErr p = false := by
            revert hm; cases fs.mkdirErr p <;> simp
          have hw : fs.writeErr p = true := by
            rcases herr with h | h
            · exact absurd h hm
            · exact h
          exact ⟨"写入文件失败", by simp [writeStep, hm', hw]⟩
      obtain ⟨e, he⟩ := hws
      rcases how with h | h
      · exact ⟨e, by simp [WriteFile, h, he]⟩
      · cases ow with
        | true => exact ⟨e, by simp [WriteFile, he]⟩
        | false => exact ⟨e, by simp [WriteFile, h, he]⟩

/-- Witness for C5 at concrete file systems: an existing file is silently
kept, a stat error propagates, an absent file is written, a failing write
errors. -/
theorem write_file_semantics_witness :
    WriteFile
        ⟨fun q => if q = "t/x.md" then some ['a'] else none,
          fun _ => false, fun _ => false, fun _ => false, []⟩
        "t/x.md" ['b'] false =
      .ok ⟨fun q => if q = "t/x.md" then some ['a'] else none,
        fun _ => false, fun _ => false, fun _ => false, []⟩ ∧
    WriteFile
        ⟨fun _ => none, fun _ => true, fun _ => false, fun _ => false, []⟩
        "t/x.md" ['b'] false = .error "检查目标文件状态失败" ∧
    WriteFile
        ⟨fun _ => none, fun _ => false, fun _ => false, fun _ => false, []⟩
        "t/x.md" ['b'] false =
      .ok (FS.doWrite
        ⟨fun _ => none, fun _ => false, fun _ => false, fun _ => false, []⟩
        "t/x.md" ['b']) ∧
    ∃ e, WriteFile
        ⟨fun _ => none, fun _ => false, fun _ => false, fun _ => true, []⟩
        "t/x.md" ['b'] true = .error e :=
  ⟨(write_file_semantics _ "t/x.md" ['b']).1 (by decide),
   (write_file_semantics _ "t/x.md" ['b']).2.1 (by decide),
   (((write_file_semantics _ "t/x.md" ['b']).2.2 false
      (Or.inr (by decide))).1 rfl rfl).1,
   ((write_file_semantics _ "t/x.md" ['b']).2.2 true
      (Or.inl rfl)).2 (Or.inr rfl)⟩

/-! ### Idempotence machinery (C8) -/

theorem stat_ok_iff (fs : FS) (q : String) :
    fs.stat q = .ok ↔ fs.statErr q = false ∧ (fs.files q).isSome = true := by
  unfold FS.stat
  by_cases hs : fs.statErr q = true
  · simp [hs]
  · have hs' : fs.statErr q = false := by revert hs; cases fs.statErr q <;> simp
    by_cases hf : (fs.files q).isSome = true <;> simp [hs', hf]

theorem stat_notExist_statErr (fs : FS) (q : String)
    (h : fs.stat q = .notExist) : fs.statErr q = false := by
  unfold FS.stat at h
  by_cases hs : fs.statErr q = true
  · rw [if_pos hs] at h; cases h
  · revert hs; cases fs.statErr q <;> simp

theorem doWrite_stat_ok (fs : FS) (p : String) (c : List Char) (q : String)
    (hq : fs.stat q = .ok) : (fs.doWrite p c).stat q = .ok := by
  rw [stat_ok_iff] at hq ⊢
  refine ⟨hq.1, ?_⟩
  show (if q = p then some c else fs.files q).isSome = true
  by_cases hqp : q = p <;> simp [hqp, hq.2]

theorem doWrite_stat_self (fs : FS) (p : String) (c : List Char)
    (hs : fs.statErr p = false) : (fs.doWrite p c).stat p = .ok := by
  rw [stat_ok_iff]
  exact ⟨hs, by simp [FS.doWrite]⟩

theorem writeStep_ok_inv (fs : FS) (p : String) (c : List Char) (fs' : FS)
    (h : writeStep fs p c = .ok fs') : fs' = fs.doWrite p c := by
  unfold writeStep at h
  by_cases hm : fs.mkdirErr p = true
  · rw [if_pos hm] at h; cases h
  · rw [if_neg hm] at h
    by_cases hw : fs.writeErr p = true
    · rw [if_pos hw] at h; cases h
    · rw [if_neg hw] at h
      cases h
      rfl

theorem writeFile_ok_stat (fs : FS) (p : String) (c : List Char) (fs' : FS)
    (h : WriteFile fs p c false = .ok fs') : fs'.stat p = .ok := by
  unfold WriteFile at h
  rw [if_pos rfl] at h
  rcases hstat : fs.stat p with _ | _ | _ <;> rw [hstat] at h
  · cases h
    exact hstat
  · have := writeStep_ok_inv fs p c fs' h
    subst this
    exact doWrite_stat_self fs p c (stat_notExist_statErr fs p hstat)
  · cases h

theorem writeFile_mono_statok (fs : FS) (p : String) (c : List Char) (ow : Bool)
    (fs' : FS) (h : WriteFile fs p c ow = .ok fs') (q : String)
    (hq : fs.stat q = .ok) : fs'.stat q = .ok := by
  unfold WriteFile at h
  cases ow with
  | true =>
    rw [if_neg (by simp)] at h
    have := writeStep_ok_inv fs p c fs' h
    subst this
    exact doWrite_stat_ok fs p c q hq
  | false =>
    rw [if_pos rfl] at h
    rcases hstat : fs.stat p with _ | _ | _ <;> rw [hstat] at h
    · cases h
      exact hq
    · have := writeStep_ok_inv fs p c fs' h
      subst this
      exact doWrite_stat_ok fs p c q hq
    · cases h

theorem workerBody_mono_statok (cfg : Config) (env : Env) (fs : FS)
    (sp tp : String) (pre : List Event) (q : String) (hq : fs.stat q = .ok) :
    ((workerBody cfg env fs sp tp pre).2.1).stat q = .ok := by
  unfold workerBody
  split
  · exact hq
  · split
    · exact hq
    · split
      · exact hq
      · split
        · exact hq
        · split
          · exact hq
          · split
            · exact hq
            · rename_i fs2 hwf
              exact writeFile_mono_statok _ _ _ _ _ hwf q hq

theorem worker1_mono_statok (cfg : Config) (env : Env) (fs : FS) (rel : String)
    (q : String) (hq : fs.stat q = .ok) :
    ((worker1 cfg env fs rel).2.1).stat q = .ok := by
  simp only [worker1]
  by_cases hc : (!cfg.overwrite && !cfg.dryRun) = true
  · rw [if_pos hc]
    rcases hstat : fs.stat (pjoin cfg.targetDir rel) with _ | _ | _
    · exact hq
    · exact workerBody_mono_statok cfg env fs _ _ _ q hq
    · exact hq
  · rw [if_neg hc]
    exact workerBody_mono_statok cfg env fs _ _ _ q hq

theorem runList_mono_statok (cfg : Config) (env : Env) (files : List String)
    (fs : FS) (q : String) (hq : fs.stat q = .ok) :
    (((runList cfg env fs files).2.1)).stat q = .ok := by
  induction files generalizing fs with
  | nil => exact hq
  | cons r rest ih =>
    simp only [runList]
    exact ih (worker1 cfg env fs r).2.1 (worker1_mono_statok cfg env fs r q hq)

theorem workerBody_processed_inv (cfg : Config) (env : Env) (fs : FS)
    (sp tp : String) (pre : List Event) :
    (workerBody cfg env fs sp tp pre).1 = .processed →
    ∃ text fs2, WriteFile fs tp text cfg.overwrite = Except.ok fs2 ∧
      (workerBody cfg env fs sp tp pre).2.1 = fs2 := by
  unfold workerBody
  split
  · intro h; simp at h
  · split
    · intro h; simp at h
    · split
      · intro h; simp at h
      · split
        · intro h; simp at h
        · split
          · intro h; simp at h
          · rename_i text hex
            split
            · intro h; simp at h
            · rename_i fs2 hwf
              intro _
              exact ⟨text, fs2, hwf, rfl⟩

theorem worker1_processed_inv (cfg : Config) (env : Env) (fs : FS)
    (rel : String) :
    (worker1 cfg env fs rel).1 = .processed →
    ∃ text fs2,
      WriteFile fs (pjoin cfg.targetDir rel) text cfg.overwrite = Except.ok fs2 ∧
      (worker1 cfg env fs rel).2.1 = fs2 := by
  simp only [worker1]
  by_cases hc : (!cfg.overwrite && !cfg.dryRun) = true
  · rw [hc]
    rcases hstat : fs.stat (pjoin cfg.targetDir rel) with _ | _ | _
    · intro h; simp at h
    · exact workerBody_processed_inv cfg env fs _ _ _
    · intro h; simp at h
  · have hc' : (!cfg.overwrite && !cfg.dryRun) = false := by
      revert hc; cases (!cfg.overwrite && !cfg.dryRun) <;> simp
    rw [hc']
    exact workerBody_processed_inv cfg env fs _ _ _

theorem worker1_processed_stat (cfg : Config) (env : Env) (fs : FS)
    (rel : String) (how : cfg.overwrite = false)
    (h : (worker1 cfg env fs rel).1 = .processed) :
    ((worker1 cfg env fs rel).2.1).stat (pjoin cfg.targetDir rel) = .ok := by
  obtain ⟨text, fs2, hwf, hfs⟩ := worker1_processed_inv cfg env fs rel h
  rw [hfs]
  rw [how] at hwf
  exact writeFile_ok_stat fs _ text fs2 hwf

theorem runList_all_processed_stat (cfg : Config) (env : Env)
    (how : cfg.overwrite = false) (files : List String) (fs : FS)
    (hall : ∀ o ∈ (runList cfg env fs files).1, o = Outcome.processed) :
    ∀ rel ∈ files,
      ((runList cfg env fs files).2.1).stat (pjoin cfg.targetDir rel) = .ok := by
  induction files generalizing fs with
  | nil => intro rel hrel; simp at hrel
  | cons r rest ih =>
    intro rel hrel
    have hhead : (worker1 cfg env fs r).1 = .processed := by
      apply hall
      simp [runList]
    have htail : ∀ o ∈ (runList cfg env (worker1 cfg env fs r).2.1 rest).1,
        o = Outcome.processed := by
      intro o ho
      apply hall
      simp only [runList, List.mem_cons]
      exact Or.inr ho
    rcases List.mem_cons.mp hrel with rfl | hrel'
    · have h1 := worker1_processed_stat cfg env fs rel how hhead
      simp only [runList]
      exact runList_mono_statok cfg env rest _ _ h1
    · simp only [runList]
      exact ih (worker1 cfg env fs r).2.1 htail rel hrel'

theorem runList_all_skip (cfg : Config) (env : Env)
    (how : cfg.overwrite = false) (hdr : cfg.dryRun = false)
    (files : List String) (fs : FS)
    (hok : ∀ rel ∈ files, fs.stat (pjoin cfg.targetDir rel) = .ok) :
    (runList cfg env fs files).1 = List.replicate files.length .skipped ∧
    (runList cfg env fs files).2.1 = fs := by
  induction files generalizing fs with
  | nil => exact ⟨rfl, rfl⟩
  | cons r rest ih =>
    have hcond : (!cfg.overwrite && !cfg.dryRun) = true := by simp [how, hdr]
    have hw : worker1 cfg env fs r = (.skipped, fs, [.skipCheck]) := by
      simp only [worker1]
      rw [if_pos hcond, hok r (by simp)]
    obtain ⟨ih1, ih2⟩ := ih fs fun rel hrel => hok rel (by simp [hrel])
    constructor
    · simp only [runList, hw, ih1, List.length_cons]
      rfl
    · simp only [runList, hw]
      exact ih2

/-! ### Outcome-count inversions -/

theorem countO_le_length (a : Outcome) (l : List Outcome) :
    countO a l ≤ l.length := by
  induction l with
  | nil => simp [countO]
  | cons x xs ih =>
    by_cases hx : x = a <;> simp [countO, hx, List.length_cons] <;> omega

theorem countO_eq_length_all (a : Outcome) (l : List Outcome)
    (h : countO a l = l.length) : ∀ x ∈ l, x = a := by
  induction l with
  | nil => intro x hx; simp at hx
  | cons y ys ih =>
    intro x hx
    have hle := countO_le_length a ys
    by_cases hy : y = a
    · have hcount : countO a ys = ys.length := by
        rw [countO, if_pos hy, List.length_cons] at h
        omega
      rcases List.mem_cons.mp hx with rfl | hx'
      · exact hy
      · exact ih hcount x hx'
    · exfalso
      rw [countO, if_neg hy, List.length_cons] at h
      omega

theorem countO_replicate_self (a : Outcome) (n : Nat) :
    countO a (List.replicate n a) = n := by
  induction n with
  | zero => rfl
  | succ m ih =>
    simp [List.replicate, countO, ih]
    omega

theorem countO_replicate_ne (a b : Outcome) (n : Nat) (h : b ≠ a) :
    countO b (List.replicate n a) = 0 := by
  apply countO_eq_zero_of_all
  intro x hx
  rw [List.eq_of_mem_replicate hx]
  exact fun hh => h hh.symm

/-- C8: if a first run with overwrite and dry-run off ends with every task
`Processed`, then a second run with the same configuration over the same
source/target pair (any backend behaviour) skips every task: `Skipped =
Total` and `Processed = 0`. -/
theorem rerun_idempotent (cfg : Config) (env env2 : Env) (fs : FS)
    (files : List String) (how : cfg.overwrite = false)
    (hdr : cfg.dryRun = false)
    (hall : (ProcessFiles cfg env fs files).1.processed =
      (ProcessFiles cfg env fs files).1.total) :
    (ProcessFiles cfg env2 (ProcessFiles cfg env fs files).2.1 files).1.skipped =
      (ProcessFiles cfg env2 (ProcessFiles cfg env fs files).2.1 files).1.total ∧
    (ProcessFiles cfg env2 (ProcessFiles cfg env fs files).2.1 files).1.processed =
      0 := by
  have hcnt : countO .processed (runList cfg env fs files).1 =
      ((runList cfg env fs files).1).length := by
    have h1 : (ProcessFiles cfg env fs files).1.processed =
        countO .processed (runList cfg env fs files).1 := rfl
    have h2 : (ProcessFiles cfg env fs files).1.total = files.length := rfl
    rw [h1, h2] at hall
    rw [hall, runList_length]
  have hallp : ∀ o ∈ (runList cfg env fs files).1, o = Outcome.processed :=
    countO_eq_length_all _ _ hcnt
  have hstat1 : ∀ rel ∈ files,
      ((runList cfg env fs files).2.1).stat (pjoin cfg.targetDir rel) = .ok :=
    runList_all_processed_stat cfg env how files fs hallp
  have hfs1 : (ProcessFiles cfg env fs files).2.1 =
      (runList cfg env fs files).2.1 := rfl
  obtain ⟨hr1, _⟩ := runList_all_skip cfg env2 how hdr files
    (runList cfg env fs files).2.1 hstat1
  constructor
  · show countO .skipped (runList cfg env2 (ProcessFiles cfg env fs files).2.1 files).1 =
      files.length
    rw [hfs1, hr1, countO_replicate_self]
  · show countO .processed (runList cfg env2 (ProcessFiles cfg env fs files).2.1 files).1 =
      0
    rw [hfs1, hr1]
    exact countO_replicate_ne _ _ _ (by simp)

/-- Witness for C8: a concrete fully-successful first run, then a second run
(with a backend that would fail if called) that skips everything. -/
theorem rerun_idempotent_witness :
    (ProcessFiles ⟨"s", "t", false, false⟩
        ⟨fun _ => .error "down", false, fun _ => .error "down"⟩
        (ProcessFiles ⟨"s", "t", false, false⟩
          ⟨fun _ => .ok ['h'], true,
            fun _ => .ok "<translate>hi</translate>".toList⟩
          ⟨fun _ => none, fun _ => false, fun _ => false, fun _ => false, []⟩
          ["a.md"]).2.1
        ["a.md"]).1.skipped =
      (ProcessFiles ⟨"s", "t", false, false⟩
        ⟨fun _ => .error "down", false, fun _ => .error "down"⟩
        (ProcessFiles ⟨"s", "t", false, false⟩
          ⟨fun _ => .ok ['h'], true,
            fun _ => .ok "<translate>hi</translate>".toList⟩
          ⟨fun _ => none, fun _ => false, fun _ => false, fun _ => false, []⟩
          ["a.md"]).2.1
        ["a.md"]).1.total ∧
    (ProcessFiles ⟨"s", "t", false, false⟩
        ⟨fun _ => .error "down", false, fun _ => .error "down"⟩
        (ProcessFiles ⟨"s", "t", false, false⟩
          ⟨fun _ => .ok ['h'], true,
            fun _ => .ok "<translate>hi</translate>".toList⟩
          ⟨fun _ => none, fun _ => false, fun _ => false, fun _ => false, []⟩
          ["a.md"]).2.1
        ["a.md"]).1.processed = 0 :=
  rerun_idempotent ⟨"s", "t", false, false⟩
    ⟨fun _ => .ok ['h'], true, fun _ => .ok "<translate>hi</translate>".toList⟩
    ⟨fun _ => .error "down", false, fun _ => .error "down"⟩
    ⟨fun _ => none, fun _ => false, fun _ => false, fun _ => false, []⟩
    ["a.md"] rfl rfl (by decide)

/-! ### Discovery lemmas (C6, C10) -/

theorem walkList_append (rel : String) (ts1 ts2 : List FTree) :
    walkList rel (ts1 ++ ts2) = walkList rel ts1 ++ walkList rel ts2 := by
  induction ts1 with
  | nil => simp [walkList]
  | cons t ts ih =>
    cases t with
    | file name => simp [walkList, ih, List.append_assoc]
    | dir name re children =>
      cases re <;> simp [walkList, ih, List.append_assoc]

theorem walkList_eq_collect (rel : String) (ts : List FTree) :
    errFreeList ts = true → walkList rel ts = collectList rel ts := by
  induction rel, ts using walkList.induct
  all_goals intro h
  all_goals simp_all [walkList, collectList, walkCallback, errFreeList]
  rename_i rel1 name1 rest1 ih1
  by_cases hmd : hasMdSuffix name1 = true <;> simp [hmd]

/-- C6: discovery returns exactly the non-directory entries whose name,
case-insensitively, ends in `".md"`, as paths relative to the source root;
a permission failure on the root itself (lstat or read) aborts with an
error; a read failure on a subdirectory skips exactly that subtree; and an
errored individual entry (no entry info, or a non-directory entry) makes the
callback continue without collecting, never aborting. -/
theorem find_markdown_semantics :
    (∀ root : SourceRoot, root.lstatErr = none → root.readErr = none →
      errFreeList root.children = true →
      FindMarkdownFiles root = .ok (collectList "" root.children)) ∧
    (∀ (root : SourceRoot) (e : GoErr), e.isPermission = true →
      (root.lstatErr = some e ∨ (root.lstatErr = none ∧ root.readErr = some e)) →
      FindMarkdownFiles root = .error discoveryFatalMsg) ∧
    (∀ (rel nm : String) (e : GoErr) (cs pre post : List FTree),
      walkList rel (pre ++ FTree.dir nm (some e) cs :: post) =
        walkList rel (pre ++ post)) ∧
    (∀ (rel : String) (e : GoErr),
      walkCallback false none (some e) rel = (.cont, none) ∧
      ∀ nm : String,
        walkCallback false (some ⟨false, nm⟩) (some e) rel = (.cont, none)) := by
  refine ⟨?_, ?_, ?_, ?_⟩
  · intro root h1 h2 h3
    unfold FindMarkdownFiles
    rw [h1, h2, walkList_eq_collect _ _ h3]
  · intro root e hper h
    unfold FindMarkdownFiles
    rcases h with h | ⟨h1, h2⟩
    · rw [h]
      simp [walkCallback, hper]
    · rw [h1, h2]
      simp [walkCallback, hper]
  · intro rel nm e cs pre post
    rw [walkList_append, walkList_append]
    simp [walkList]
  · intro rel e
    exact ⟨rfl, fun nm => rfl⟩

/-- Witness for C6 on a concrete tree: collection, root permission abort,
subtree skip, and entry-error continuation. -/
theorem find_markdown_semantics_witness :
    FindMarkdownFiles ⟨none, none, [.file "a.MD", .dir "sub" none [.file "b.md"]]⟩ =
      .ok (collectList "" [.file "a.MD", .dir "sub" none [.file "b.md"]]) ∧
    FindMarkdownFiles ⟨some ⟨true⟩, none, [.file "a.md"]⟩ =
      .error discoveryFatalMsg ∧
    walkList "" ([.file "a.md"] ++ FTree.dir "bad" (some ⟨false⟩) [.file "c.md"] ::
        [.file "b.md"]) =
      walkList "" ([.file "a.md"] ++ [.file "b.md"]) ∧
    walkCallback false none (some ⟨false⟩) "x.md" = (.cont, none) :=
  ⟨find_markdown_semantics.1 _ rfl rfl (by simp [errFreeList]),
   find_markdown_semantics.2.1 _ ⟨true⟩ rfl (Or.inl rfl),
   find_markdown_semantics.2.2.1 "" "bad" ⟨false⟩ [.file "c.md"] [.file "a.md"]
     [.file "b.md"],
   (find_markdown_semantics.2.2.2 "x.md" ⟨false⟩).1⟩

/-- C10: any root-level walk error that is not a permission error — a missing
source root included — is swallowed: discovery returns an empty list and no
error. -/
theorem discovery_swallows_root_errors (root : SourceRoot) (e : GoErr)
    (hper : e.isPermission = false)
    (h : root.lstatErr = some e ∨ (root.lstatErr = none ∧ root.readErr = some e)) :
    FindMarkdownFiles root = .ok [] := by
  unfold FindMarkdownFiles
  rcases h with h | ⟨h1, h2⟩
  · rw [h]
    simp [walkCallback, hper]
  · rw [h1, h2]
    simp [walkCallback, hper]

/-- Witness for C10: a missing source root (non-permission lstat failure)
yields an empty list and no error. -/
theorem discovery_swallows_root_errors_witness :
    FindMarkdownFiles ⟨some ⟨false⟩, none, [.file "a.md"]⟩ = .ok [] :=
  discovery_swallows_root_errors ⟨some ⟨false⟩, none, [.file "a.md"]⟩ ⟨false⟩
    rfl (Or.inl rfl)

end MdT
